import Mathlib

/-!
# Verification of the mortar QC engine (`mortar_QC.py`)

Shallow embedding of the computational engine behind the sand-QC dashboard:
the PSD text parser, the piecewise-linear interpolator, the threshold-based
compatibility classifier, and the single-pass mass-balance projector.

Real-valued quantities (Python floats) are modelled as rationals `ℚ`; the
float sentinel `nan` and Python exceptions swallowed by `try/except` are
modelled with `Option`.  Each definition mirrors the corresponding Python
function of `mortar_QC.py`.
-/

namespace MortarQC

open List

/-! ## Compatibility classifier (`MORTAR_FLAG_THRESHOLDS`, `get_mortar_compatibility`) -/

/-- One entry of the `MORTAR_FLAG_THRESHOLDS` dict: thresholds for MBV,
sand equivalent and fines percent. -/
structure MortarThresholds where
  mbv : ℚ
  se : ℤ
  fines : ℚ

/-- `MORTAR_FLAG_THRESHOLDS["unsuitable"] = {"mbv": 4.0, "se": 70, "fines": 15}`. -/
def MORTAR_FLAG_THRESHOLDS_unsuitable : MortarThresholds :=
  { mbv := 4, se := 70, fines := 15 }

/-- `MORTAR_FLAG_THRESHOLDS["safe"] = {"mbv": 2.5, "se": 75, "fines": 10}`. -/
def MORTAR_FLAG_THRESHOLDS_safe : MortarThresholds :=
  { mbv := 5/2, se := 75, fines := 10 }

/-- The string returned for the Safe tier. -/
def safe_label : String := "✅ Safe for all mortar types"

/-- The string returned for the Unsuitable tier. -/
def unsuitable_label : String := "❌ Not suitable for tile/self-leveling"

/-- The string returned for the Restricted (intermediate) tier. -/
def restricted_label : String := "⚠️ Use only in plaster or screed"

/-- `get_mortar_compatibility(mbv, se, fines)` from `mortar_QC.py`:
first the conjunctive "safe" gate, then the disjunctive "unsuitable" gate,
else the intermediate tier. -/
def get_mortar_compatibility (mbv : ℚ) (se : ℤ) (fines : ℚ) : String :=
  if mbv ≤ MORTAR_FLAG_THRESHOLDS_safe.mbv ∧ MORTAR_FLAG_THRESHOLDS_safe.se ≤ se ∧
      fines ≤ MORTAR_FLAG_THRESHOLDS_safe.fines then
    safe_label
  else if MORTAR_FLAG_THRESHOLDS_unsuitable.mbv < mbv ∨
      se < MORTAR_FLAG_THRESHOLDS_unsuitable.se ∨
      MORTAR_FLAG_THRESHOLDS_unsuitable.fines < fines then
    unsuitable_label
  else
    restricted_label

/-- Hypothetical variant of `get_mortar_compatibility` that evaluates the
disjunctive "unsuitable" gate before the conjunctive "safe" gate, used to
state that the gate evaluation order is immaterial. -/
def get_mortar_compatibility_unsuitable_first (mbv : ℚ) (se : ℤ) (fines : ℚ) : String :=
  if MORTAR_FLAG_THRESHOLDS_unsuitable.mbv < mbv ∨
      se < MORTAR_FLAG_THRESHOLDS_unsuitable.se ∨
      MORTAR_FLAG_THRESHOLDS_unsuitable.fines < fines then
    unsuitable_label
  else if mbv ≤ MORTAR_FLAG_THRESHOLDS_safe.mbv ∧ MORTAR_FLAG_THRESHOLDS_safe.se ≤ se ∧
      fines ≤ MORTAR_FLAG_THRESHOLDS_safe.fines then
    safe_label
  else
    restricted_label

lemma safe_label_ne_unsuitable_label : safe_label ≠ unsuitable_label := by decide

lemma safe_label_ne_restricted_label : safe_label ≠ restricted_label := by decide

lemma unsuitable_label_ne_restricted_label : unsuitable_label ≠ restricted_label := by decide

/-- C1: the classifier returns the Safe tier exactly when
`mbv ≤ 2.5 ∧ se ≥ 75 ∧ fines ≤ 10`, otherwise the Unsuitable tier exactly
when `mbv > 4 ∨ se < 70 ∨ fines > 15`, otherwise the Restricted tier; and
`classify(2, 80, 8)` is Safe, `classify(5, 60, 20)` is Unsuitable,
`classify(3, 72, 12)` is Restricted. -/
theorem get_mortar_compatibility_tiers (mbv : ℚ) (se : ℤ) (fines : ℚ) :
    (get_mortar_compatibility mbv se fines = safe_label ↔
      (mbv ≤ 5/2 ∧ 75 ≤ se ∧ fines ≤ 10)) ∧
    (get_mortar_compatibility mbv se fines = unsuitable_label ↔
      (¬(mbv ≤ 5/2 ∧ 75 ≤ se ∧ fines ≤ 10) ∧ (4 < mbv ∨ se < 70 ∨ 15 < fines))) ∧
    (get_mortar_compatibility mbv se fines = restricted_label ↔
      (¬(mbv ≤ 5/2 ∧ 75 ≤ se ∧ fines ≤ 10) ∧ ¬(4 < mbv ∨ se < 70 ∨ 15 < fines))) ∧
    get_mortar_compatibility 2 80 8 = safe_label ∧
    get_mortar_compatibility 5 60 20 = unsuitable_label ∧
    get_mortar_compatibility 3 72 12 = restricted_label := by
  refine ⟨?_, ?_, ?_, ?_, ?_, ?_⟩
  · unfold get_mortar_compatibility MORTAR_FLAG_THRESHOLDS_safe MORTAR_FLAG_THRESHOLDS_unsuitable
    split_ifs with h1 h2 <;>
      simp_all [safe_label_ne_unsuitable_label, safe_label_ne_restricted_label,
        unsuitable_label_ne_restricted_label, safe_label_ne_unsuitable_label.symm,
        safe_label_ne_restricted_label.symm, unsuitable_label_ne_restricted_label.symm]
  · unfold get_mortar_compatibility MORTAR_FLAG_THRESHOLDS_safe MORTAR_FLAG_THRESHOLDS_unsuitable
    split_ifs with h1 h2 <;>
      simp_all [safe_label_ne_unsuitable_label, safe_label_ne_restricted_label,
        unsuitable_label_ne_restricted_label, safe_label_ne_unsuitable_label.symm,
        safe_label_ne_restricted_label.symm, unsuitable_label_ne_restricted_label.symm]
  · unfold get_mortar_compatibility MORTAR_FLAG_THRESHOLDS_safe MORTAR_FLAG_THRESHOLDS_unsuitable
    split_ifs with h1 h2 <;>
      simp_all [safe_label_ne_unsuitable_label, safe_label_ne_restricted_label,
        unsuitable_label_ne_restricted_label, safe_label_ne_unsuitable_label.symm,
        safe_label_ne_restricted_label.symm, unsuitable_label_ne_restricted_label.symm]
  · unfold get_mortar_compatibility MORTAR_FLAG_THRESHOLDS_safe
    rw [if_pos (by norm_num)]
  · unfold get_mortar_compatibility MORTAR_FLAG_THRESHOLDS_safe MORTAR_FLAG_THRESHOLDS_unsuitable
    rw [if_neg (by norm_num), if_pos (by norm_num)]
  · unfold get_mortar_compatibility MORTAR_FLAG_THRESHOLDS_safe MORTAR_FLAG_THRESHOLDS_unsuitable
    rw [if_neg (by norm_num), if_neg (by norm_num)]

/-- C10: the Safe conjunction and the Unsuitable disjunction are never
simultaneously true, hence the classifier returns the same tier whether the
Safe gate or the Unsuitable gate is evaluated first. -/
theorem get_mortar_compatibility_gates_disjoint (mbv : ℚ) (se : ℤ) (fines : ℚ) :
    ¬((mbv ≤ 5/2 ∧ 75 ≤ se ∧ fines ≤ 10) ∧ (4 < mbv ∨ se < 70 ∨ 15 < fines)) ∧
    get_mortar_compatibility mbv se fines =
      get_mortar_compatibility_unsuitable_first mbv se fines := by
  constructor
  · rintro ⟨⟨hm, hs, hf⟩, h4 | h70 | h15⟩
    · linarith
    · omega
    · linarith
  · unfold get_mortar_compatibility get_mortar_compatibility_unsuitable_first
      MORTAR_FLAG_THRESHOLDS_safe MORTAR_FLAG_THRESHOLDS_unsuitable
    dsimp only
    split_ifs with h1 h2
    · exfalso
      obtain ⟨hm, hs, hf⟩ := h1
      rcases h2 with h | h | h
      · linarith
      · omega
      · linarith
    · rfl
    · rfl
    · rfl

/-! ## Mass-balance projector (`mass_balance_after_reject`) -/

/-- `mass_balance_after_reject(feed_fines_pct, reject_rate_pct,
reject_fines_grade_pct)` from `mortar_QC.py`, with the same intermediate
quantities.  The literal `1e-9` is modelled as the exact rational. -/
def mass_balance_after_reject
    (feed_fines_pct reject_rate_pct reject_fines_grade_pct : ℚ) : ℚ :=
  let fF := feed_fines_pct / 100
  let R := max 0 (min 1 (reject_rate_pct / 100))
  let fR := max 0 (min 1 (reject_fines_grade_pct / 100))
  let fines_feed_mass := 1 * fF
  let reject_mass := 1 * R
  let fines_reject_mass := reject_mass * fR
  let product_mass := 1 - reject_mass
  let product_fines_mass := max 0 (fines_feed_mass - fines_reject_mass)
  100 * product_fines_mass / max (1/1000000000) product_mass

/-- `clamp(x, lo, hi)` as used in the spec's formula. -/
def clamp (lo hi x : ℚ) : ℚ := max lo (min hi x)

/-- The spec's mass-balance formula, stated verbatim:
`100 * max(0, f/100 - clamp(r/100,0,1) * clamp(g/100,0,1)) /
 max(1 - clamp(r/100,0,1), 1e-9)`. -/
def mass_balance_spec_formula (f r g : ℚ) : ℚ :=
  100 * max 0 (f / 100 - clamp 0 1 (r / 100) * clamp 0 1 (g / 100)) /
    max (1 - clamp 0 1 (r / 100)) (1/1000000000)

/-- C3: `mass_balance_after_reject` computes exactly the spec's
mass-balance formula, for all rational inputs. -/
theorem mass_balance_after_reject_eq_spec_formula (f r g : ℚ) :
    mass_balance_after_reject f r g = mass_balance_spec_formula f r g := by
  simp only [mass_balance_after_reject, mass_balance_spec_formula, clamp, one_mul]
  rw [max_comm (1/1000000000 : ℚ)]

/-- C5: with reject rate zero the projected product fines percent equals the
feed fines percent, for every nonnegative feed percentage. -/
theorem mass_balance_after_reject_zero_rate (x g : ℚ) (hx : 0 ≤ x) :
    mass_balance_after_reject x 0 g = x := by
  have h1 : max (0:ℚ) (min 1 (0 / 100)) = 0 := by norm_num
  simp only [mass_balance_after_reject, h1, one_mul, zero_mul, mul_zero, sub_zero, mul_one]
  rw [max_eq_right (by norm_num : (1/1000000000 : ℚ) ≤ 1),
    max_eq_right (by positivity : (0:ℚ) ≤ x / 100), div_one]
  ring

/-- C5 witness: the zero-reject identity at the concrete input (10, 50). -/
theorem mass_balance_after_reject_zero_rate_witness :
    mass_balance_after_reject 10 0 50 = 10 :=
  mass_balance_after_reject_zero_rate 10 50 (by norm_num)

/-- C6: the divisor of `mass_balance_after_reject` is the guarded
`max(1e-9, product_mass)`, which is always at least `1e-9`, so the function
is total and never divides by zero; and `mass_balance_after_reject 10 100 100`
returns the finite value `0`. -/
theorem mass_balance_after_reject_divisor_guard :
    (∀ f r g : ℚ, mass_balance_after_reject f r g =
      100 * max 0 (f / 100 - max 0 (min 1 (r / 100)) * max 0 (min 1 (g / 100))) /
        max (1/1000000000) (1 - max 0 (min 1 (r / 100)))) ∧
    (∀ r : ℚ, (1/1000000000 : ℚ) ≤ max (1/1000000000) (1 - max 0 (min 1 (r / 100)))) ∧
    mass_balance_after_reject 10 100 100 = 0 := by
  refine ⟨fun f r g => ?_, fun r => le_max_left _ _, ?_⟩
  · simp only [mass_balance_after_reject, one_mul]
  · have h1 : max (0:ℚ) (min 1 (100 / 100)) = 1 := by norm_num
    simp only [mass_balance_after_reject, h1, one_mul, mul_one]
    norm_num

/-- C7 counterexample: the feed percentage is not clamped before use, so
clamping all three arguments changes the result (`150 ↦ 150`, not `100`). -/
theorem mass_balance_after_reject_feed_not_clamped :
    mass_balance_after_reject 150 0 0 ≠
      mass_balance_after_reject (clamp 0 100 150) (clamp 0 100 0) (clamp 0 100 0) := by
  have hl : mass_balance_after_reject 150 0 0 = 150 := by
    have := mass_balance_after_reject_zero_rate 150 0 (by norm_num)
    simpa using this
  have hc : clamp 0 100 (150:ℚ) = 100 := by norm_num [clamp]
  have hc0 : clamp 0 100 (0:ℚ) = 0 := by norm_num [clamp]
  have hr : mass_balance_after_reject 100 0 0 = 100 := by
    have := mass_balance_after_reject_zero_rate 100 0 (by norm_num)
    simpa using this
  rw [hl, hc, hc0, hr]
  norm_num

lemma clamp01_div100_clamp (x : ℚ) :
    max 0 (min 1 (clamp 0 100 x / 100)) = max 0 (min 1 (x / 100)) := by
  rcases le_total x 0 with h | h
  · have h1 : clamp 0 100 x = 0 := by
      rw [clamp, min_eq_right (by linarith : x ≤ 100), max_eq_left h]
    rw [h1]
    have h2 : x / 100 ≤ 0 := by
      apply div_nonpos_of_nonpos_of_nonneg h (by norm_num)
    rw [min_eq_right (by linarith : x / 100 ≤ 1), max_eq_left h2]
    norm_num
  · rcases le_total x 100 with h' | h'
    · have h1 : clamp 0 100 x = x := by
        rw [clamp, min_eq_right h', max_eq_right h]
      rw [h1]
    · have h1 : clamp 0 100 x = 100 := by
        rw [clamp, min_eq_left h', max_eq_right (by norm_num)]
      rw [h1]
      have h2 : (1:ℚ) ≤ x / 100 := by
        rw [le_div_iff₀ (by norm_num : (0:ℚ) < 100)]
        linarith
      rw [min_eq_left h2, min_eq_left (by norm_num : (1:ℚ) ≤ 100 / 100)]

/-- C7 amended: only the reject rate and the reject fines grade are
independently clamped (to [0,100]) before use; the feed percentage enters
unclamped. -/
theorem mass_balance_after_reject_clamps_reject_args (f r g : ℚ) :
    mass_balance_after_reject f r g =
      mass_balance_after_reject f (clamp 0 100 r) (clamp 0 100 g) := by
  simp only [mass_balance_after_reject, clamp01_div100_clamp]

/-! ## PSD text parser (`parse_text_sieve`)

The parser is modelled on lists of characters.  `str.split(sep)` is modelled
by `splitOnChar`, `str.strip()` by `trimChars`, and Python's `float(...)`
constructor by `parseDecimal` (the usual decimal forms with optional sign,
fractional part and exponent; a failing parse is `none`, modelling the
`ValueError` swallowed by the `try/except`). -/

/-- ASCII whitespace, as stripped by `str.strip()`. -/
def isWS (c : Char) : Bool := c = ' ' || c = '\t' || c = '\n' || c = '\r'

/-- Remove leading and trailing whitespace: `str.strip()`. -/
def trimChars (l : List Char) : List Char :=
  ((l.dropWhile isWS).reverse.dropWhile isWS).reverse

/-- Split a character list at every occurrence of `sep`: `str.split(sep)`.
Always returns a nonempty list of (possibly empty) fields. -/
def splitOnChar (sep : Char) : List Char → List (List Char)
  | [] => [[]]
  | c :: cs =>
    match splitOnChar sep cs with
    | [] => if c = sep then [[], []] else [[c]]
    | f :: fs => if c = sep then [] :: f :: fs else (c :: f) :: fs

/-- Numeric value of a decimal digit character. -/
def digitVal (c : Char) : ℕ := c.toNat - '0'.toNat

/-- Value of a digit string read in base 10. -/
def digitsVal (l : List Char) : ℕ := l.foldl (fun n c => 10 * n + digitVal c) 0

/-- Exponent suffix of a float literal: nonempty digits after `e`/`E` and an
optional sign, scaling the mantissa by the corresponding power of ten. -/
def parseExpDigits (ds : List Char) (mant : ℚ) (neg : Bool) : Option ℚ :=
  if ds ≠ [] ∧ ds.all Char.isDigit then
    some (if neg then mant / 10 ^ digitsVal ds else mant * 10 ^ digitsVal ds)
  else none

/-- Tail of a float literal after the mantissa: empty, or an exponent part. -/
def parseExpPart (l : List Char) (mant : ℚ) : Option ℚ :=
  match l with
  | [] => some mant
  | 'e' :: rest =>
    match rest with
    | '+' :: ds => parseExpDigits ds mant false
    | '-' :: ds => parseExpDigits ds mant true
    | ds => parseExpDigits ds mant false
  | 'E' :: rest =>
    match rest with
    | '+' :: ds => parseExpDigits ds mant false
    | '-' :: ds => parseExpDigits ds mant true
    | ds => parseExpDigits ds mant false
  | _ => none

/-- Unsigned float literal: digits, optional `.` plus digits (at least one
digit in the mantissa overall), optional exponent. -/
def parseUnsigned (l : List Char) : Option ℚ :=
  let intPart := l.takeWhile Char.isDigit
  let rest1 := l.dropWhile Char.isDigit
  match rest1 with
  | '.' :: rest2 =>
    let fracPart := rest2.takeWhile Char.isDigit
    let rest3 := rest2.dropWhile Char.isDigit
    if intPart = [] ∧ fracPart = [] then none
    else
      parseExpPart rest3
        ((digitsVal intPart : ℚ) + (digitsVal fracPart : ℚ) / 10 ^ fracPart.length)
  | _ =>
    if intPart = [] then none else parseExpPart rest1 (digitsVal intPart)

/-- Python's `float(...)` on an already-stripped string, for the ordinary
decimal forms (optional sign, decimal point, exponent).  `none` models the
`ValueError` raised on a malformed literal. -/
def parseDecimal (l : List Char) : Option ℚ :=
  match l with
  | '+' :: rest => parseUnsigned rest
  | '-' :: rest => (parseUnsigned rest).map (fun q => -q)
  | _ => parseUnsigned l

/-- One iteration of the `parse_text_sieve` loop: skip the line unless its
stripped form contains a colon, then `size, pct = line.split(":")` (exactly
two fields, else the `ValueError` is swallowed) and `float` both parts. -/
def parseSieveLine (line : List Char) : Option (ℚ × ℚ) :=
  if ':' ∈ trimChars line then
    match splitOnChar ':' line with
    | [a, b] =>
      match parseDecimal (trimChars a), parseDecimal (trimChars b) with
      | some x, some y => some (x, y)
      | _, _ => none
    | _ => none
  else none

/-- `parse_text_sieve(text)` from `mortar_QC.py`: strip the text, split it
into lines, and keep the `(float size, float percent)` pair of every line
that parses; malformed lines contribute nothing. -/
def parse_text_sieve (text : String) : List (ℚ × ℚ) :=
  (splitOnChar '\n' (trimChars text.data)).filterMap parseSieveLine

/-- The claim's per-line description of well-formedness: split the line on
`':'`; a well-formed line has exactly two fields and both strip-parse as
floats, and its pair is that reading; anything else (no colon, wrong arity,
non-numeric field) is malformed and contributes nothing. -/
def claimLinePair (line : List Char) : Option (ℚ × ℚ) :=
  match splitOnChar ':' line with
  | [a, b] =>
    match parseDecimal (trimChars a), parseDecimal (trimChars b) with
    | some x, some y => some (x, y)
    | _, _ => none
  | _ => none

lemma mem_dropWhile_of_not_ws {c : Char} (hc : isWS c = false) :
    ∀ {l : List Char}, c ∈ l → c ∈ l.dropWhile isWS := by
  intro l h
  induction l with
  | nil => simp at h
  | cons a as ih =>
    rw [List.dropWhile_cons]
    rcases List.mem_cons.mp h with rfl | h'
    · rw [hc]
      simp
    · by_cases ha : isWS a
      · simp only [ha, if_true]
        exact ih h'
      · simp only [ha, if_false]
        exact List.mem_cons_of_mem _ h'

lemma mem_trimChars_of_mem {c : Char} {l : List Char} (hc : isWS c = false)
    (h : c ∈ l) : c ∈ trimChars l := by
  unfold trimChars
  rw [List.mem_reverse]
  exact mem_dropWhile_of_not_ws hc (List.mem_reverse.mpr (mem_dropWhile_of_not_ws hc h))

lemma splitOnChar_eq_single_of_not_mem {sep : Char} :
    ∀ {l : List Char}, sep ∉ l → splitOnChar sep l = [l] := by
  intro l
  induction l with
  | nil => intro _; rfl
  | cons c cs ih =>
    intro h
    have hc : c ≠ sep := fun hcs => h (hcs ▸ List.mem_cons_self c cs)
    have hcs : sep ∉ cs := fun hmem => h (List.mem_cons_of_mem _ hmem)
    unfold splitOnChar
    rw [ih hcs]
    simp [hc]

lemma parseSieveLine_eq_claimLinePair (line : List Char) :
    parseSieveLine line = claimLinePair line := by
  unfold parseSieveLine
  by_cases h : ':' ∈ trimChars line
  · rw [if_pos h]
    rfl
  · rw [if_neg h]
    have h' : ':' ∉ line := fun hmem => h (mem_trimChars_of_mem (by decide) hmem)
    unfold claimLinePair
    rw [splitOnChar_eq_single_of_not_mem h']

/-- C9: `parse_text_sieve` is total (it never raises) and its output is
exactly the pairs of the well-formed `<size>:<percent>` lines, in order:
every malformed line (no colon, wrong arity after splitting on `':'`,
non-numeric field) is silently dropped. -/
theorem parse_text_sieve_wellformed_lines (text : String) :
    parse_text_sieve text =
      (splitOnChar '\n' (trimChars text.data)).filterMap claimLinePair := by
  unfold parse_text_sieve
  exact List.filterMap_congr (fun line _ => parseSieveLine_eq_claimLinePair line)

/-! ## Sorting by sieve size (`df.sort_values("Sieve_mm", ascending=False)`)

The dashboard sorts the parsed table by descending sieve size before use
(`main`, and again inside `interpolate_passing_at`).  The sort is modelled
by insertion sort on the first component. -/

/-- Insert a reading into a list already sorted by descending sieve size. -/
def insertDesc (x : ℚ × ℚ) : List (ℚ × ℚ) → List (ℚ × ℚ)
  | [] => [x]
  | y :: ys => if x.1 ≤ y.1 then y :: insertDesc x ys else x :: y :: ys

/-- Sort a PSD table by descending sieve size:
`df.sort_values("Sieve_mm", ascending=False)`. -/
def sortBySizeDesc : List (ℚ × ℚ) → List (ℚ × ℚ)
  | [] => []
  | x :: xs => insertDesc x (sortBySizeDesc xs)

/-- Descending (weak) order on adjacent readings: later size ≤ earlier size. -/
def SizeLE (a b : ℚ × ℚ) : Prop := b.1 ≤ a.1

instance : DecidableRel SizeLE := fun a b => inferInstanceAs (Decidable (b.1 ≤ a.1))

lemma head?_insertDesc (x : ℚ × ℚ) (l : List (ℚ × ℚ)) :
    (insertDesc x l).head? = l.head? ∨ (insertDesc x l).head? = some x := by
  cases l with
  | nil => right; rfl
  | cons y ys =>
    unfold insertDesc
    split
    · left; rfl
    · right; rfl

lemma chain'_insertDesc (x : ℚ × ℚ) :
    ∀ {l : List (ℚ × ℚ)}, l.Chain' SizeLE → (insertDesc x l).Chain' SizeLE := by
  intro l
  induction l with
  | nil => intro _; simp [insertDesc, List.chain'_singleton]
  | cons y ys ih =>
    intro h
    rw [List.chain'_cons'] at h
    obtain ⟨hy, hys⟩ := h
    unfold insertDesc
    split
    · rename_i hxy
      rw [List.chain'_cons']
      refine ⟨?_, ih hys⟩
      intro z hz
      rcases head?_insertDesc x ys with he | he
      · exact hy z (he ▸ hz)
      · rw [he] at hz
        simp only [Option.mem_def, Option.some.injEq] at hz
        subst hz
        exact hxy
    · rename_i hxy
      rw [List.chain'_cons']
      refine ⟨?_, ?_⟩
      · intro z hz
        simp only [List.head?_cons, Option.mem_def, Option.some.injEq] at hz
        subst hz
        exact le_of_not_le hxy
      · rw [List.chain'_cons']
        exact ⟨hy, hys⟩

lemma chain'_sortBySizeDesc (l : List (ℚ × ℚ)) :
    (sortBySizeDesc l).Chain' SizeLE := by
  induction l with
  | nil => simp [sortBySizeDesc]
  | cons x xs ih => exact chain'_insertDesc x ih

lemma mem_insertDesc {z x : ℚ × ℚ} :
    ∀ {l : List (ℚ × ℚ)}, (z ∈ insertDesc x l ↔ z = x ∨ z ∈ l) := by
  intro l
  induction l with
  | nil => simp [insertDesc]
  | cons y ys ih =>
    unfold insertDesc
    split
    · rw [List.mem_cons, ih, List.mem_cons]
      tauto
    · rw [List.mem_cons, List.mem_cons]

lemma mem_sortBySizeDesc {z : ℚ × ℚ} :
    ∀ {l : List (ℚ × ℚ)}, (z ∈ sortBySizeDesc l ↔ z ∈ l) := by
  intro l
  induction l with
  | nil => simp [sortBySizeDesc]
  | cons x xs ih =>
    unfold sortBySizeDesc
    rw [mem_insertDesc, ih, List.mem_cons]

/-- C4 counterexample: `parse_text_sieve` keeps the input line order, so an
ascending input yields a table that is not sorted by descending sieve size. -/
theorem parse_text_sieve_not_sorted :
    parse_text_sieve "1: 10\n2: 20" = [(1, 10), (2, 20)] ∧
    ¬ List.Chain' SizeLE (parse_text_sieve "1: 10\n2: 20") := by
  have h : parse_text_sieve "1: 10\n2: 20" = [(1, 10), (2, 20)] := by decide
  refine ⟨h, ?_⟩
  rw [h, List.chain'_cons]
  intro hc
  exact absurd hc.1 (by norm_num [SizeLE])

/-- C4 amended: the parser itself returns rows in input order; the caller
sorts the parsed table by descending sieve size before any use, so the table
consumed downstream is always sorted descending, whatever the line order. -/
theorem sorted_parse_text_sieve (text : String) :
    List.Chain' SizeLE (sortBySizeDesc (parse_text_sieve text)) :=
  chain'_sortBySizeDesc (parse_text_sieve text)

/-! ## PSD interpolator (`interpolate_passing_at`) -/

/-- The literal `1e-9` of the exact-size match, as an exact rational. -/
def exact_eps : ℚ := 1/1000000000

/-- The literal `1e-12` of the duplicate-size bracket, as an exact rational. -/
def dup_eps : ℚ := 1/1000000000000

/-- The `for i in range(len(sizes) - 1)` loop of `interpolate_passing_at`,
walking adjacent pairs of the descending-sorted table: exact-size match
within `1e-9` returns the upper percent; a bracket interpolates linearly
(or averages if the two sizes coincide within `1e-12`); falling off the end
returns the `nan` sentinel (`none`). -/
def interpGo : List (ℚ × ℚ) → ℚ → Option ℚ
  | hi :: lo :: rest, c =>
    if |hi.1 - c| < exact_eps then some hi.2
    else if hi.1 ≥ c ∧ c ≥ lo.1 then
      if |hi.1 - lo.1| < dup_eps then some ((hi.2 + lo.2) / 2)
      else some (lo.2 + (c - lo.1) / (hi.1 - lo.1) * (hi.2 - lo.2))
    else interpGo (lo :: rest) c
  | _, _ => none

/-- `interpolate_passing_at(df, cutoff_mm)` from `mortar_QC.py`: `nan`
(`none`) on an empty table, else sort descending, flat-extrapolate outside
the tabulated range, else run the adjacent-pair loop. -/
def interpolate_passing_at (df : List (ℚ × ℚ)) (cutoff_mm : ℚ) : Option ℚ :=
  match sortBySizeDesc df with
  | [] => none
  | a :: rest =>
    if cutoff_mm > a.1 then some a.2
    else if cutoff_mm < (List.getLastD rest a).1 then some (List.getLastD rest a).2
    else interpGo (a :: rest) cutoff_mm

lemma interpGo_single (x : ℚ × ℚ) (c : ℚ) : interpGo [x] c = none := rfl

/-- Adjacent sizes drop by at least `1e-9`: the separation hypothesis under
which the exact-match property holds. -/
def SizeGap (a b : ℚ × ℚ) : Prop := b.1 + exact_eps ≤ a.1

lemma SizeGap.fst_le {a b : ℚ × ℚ} (h : SizeGap a b) : b.1 ≤ a.1 := by
  have he : (0:ℚ) < exact_eps := by norm_num [exact_eps]
  unfold SizeGap at h
  linarith

lemma mem_fst_le_head {R : ℚ × ℚ → ℚ × ℚ → Prop} (hR : ∀ a b, R a b → b.1 ≤ a.1) :
    ∀ {l : List (ℚ × ℚ)} {a x : ℚ × ℚ}, List.Chain' R (a :: l) → x ∈ a :: l → x.1 ≤ a.1 := by
  intro l
  induction l with
  | nil =>
    intro a x _ hx
    rw [List.mem_singleton] at hx
    exact le_of_eq (by rw [hx])
  | cons b bs ih =>
    intro a x hc hx
    rw [List.chain'_cons] at hc
    rcases List.mem_cons.mp hx with rfl | hx'
    · exact le_refl _
    · exact le_trans (ih hc.2 hx') (hR a b hc.1)

lemma getLastD_fst_le_mem {R : ℚ × ℚ → ℚ × ℚ → Prop} (hR : ∀ a b, R a b → b.1 ≤ a.1) :
    ∀ {l : List (ℚ × ℚ)} {a x : ℚ × ℚ}, List.Chain' R (a :: l) → x ∈ a :: l →
      (List.getLastD l a).1 ≤ x.1 := by
  intro l
  induction l with
  | nil =>
    intro a x _ hx
    rw [List.mem_singleton] at hx
    rw [List.getLastD, hx]
  | cons b bs ih =>
    intro a x hc hx
    rw [List.chain'_cons] at hc
    rw [List.getLastD_cons]
    rcases List.mem_cons.mp hx with rfl | hx'
    · exact le_trans (ih hc.2 (List.mem_cons_self b bs)) (hR x b hc.1)
    · exact ih hc.2 hx'

lemma interpGo_exact :
    ∀ (rest : List (ℚ × ℚ)) (hi lo : ℚ × ℚ) {s p : ℚ},
      List.Chain' SizeGap (hi :: lo :: rest) → (s, p) ∈ hi :: lo :: rest →
      interpGo (hi :: lo :: rest) s = some p := by
  have heps : (0:ℚ) < exact_eps := by norm_num [exact_eps]
  have hde : dup_eps < exact_eps := by norm_num [dup_eps, exact_eps]
  intro rest
  induction rest with
  | nil =>
    intro hi lo s p hc hm
    have hgap : SizeGap hi lo := (List.chain'_cons.mp hc).1
    rcases List.mem_cons.mp hm with hhi | hm'
    · have h1 : hi.1 = s := by rw [← hhi]
      have h2 : hi.2 = p := by rw [← hhi]
      rw [interpGo, if_pos (by rw [h1, sub_self, abs_zero]; exact heps), h2]
    · rw [List.mem_singleton] at hm'
      have h1 : lo.1 = s := by rw [← hm']
      have h2 : lo.2 = p := by rw [← hm']
      have hs_le : s ≤ lo.1 := le_of_eq h1.symm
      have hne : ¬ |hi.1 - s| < exact_eps := by
        rw [abs_of_nonneg (by unfold SizeGap at hgap; linarith)]
        unfold SizeGap at hgap
        linarith
      have hnd : ¬ |hi.1 - lo.1| < dup_eps := by
        rw [abs_of_nonneg (by linarith [hgap.fst_le])]
        unfold SizeGap at hgap
        linarith
      rw [interpGo, if_neg hne,
        if_pos (⟨by linarith [hgap.fst_le], le_of_eq h1⟩ : hi.1 ≥ s ∧ s ≥ lo.1),
        if_neg hnd, h1, sub_self, zero_div, zero_mul, add_zero, h2]
  | cons nxt rest' ih =>
    intro hi lo s p hc hm
    have hgap : SizeGap hi lo := (List.chain'_cons.mp hc).1
    have hctail : List.Chain' SizeGap (lo :: nxt :: rest') := (List.chain'_cons.mp hc).2
    rcases List.mem_cons.mp hm with hhi | hm'
    · have h1 : hi.1 = s := by rw [← hhi]
      have h2 : hi.2 = p := by rw [← hhi]
      rw [interpGo, if_pos (by rw [h1, sub_self, abs_zero]; exact heps), h2]
    · have hs_le : s ≤ lo.1 :=
        mem_fst_le_head (fun a b h => h.fst_le) hctail hm'
      have hne : ¬ |hi.1 - s| < exact_eps := by
        rw [abs_of_nonneg (by unfold SizeGap at hgap; linarith)]
        unfold SizeGap at hgap
        linarith
      rcases List.mem_cons.mp hm' with hlo | hm''
      · have h1 : lo.1 = s := by rw [← hlo]
        have h2 : lo.2 = p := by rw [← hlo]
        have hnd : ¬ |hi.1 - lo.1| < dup_eps := by
          rw [abs_of_nonneg (by linarith [hgap.fst_le])]
          unfold SizeGap at hgap
          linarith
        rw [interpGo, if_neg hne,
          if_pos (⟨by linarith [hgap.fst_le], le_of_eq h1⟩ : hi.1 ≥ s ∧ s ≥ lo.1),
          if_neg hnd, h1, sub_self, zero_div, zero_mul, add_zero, h2]
      · have hgap2 : SizeGap lo nxt := (List.chain'_cons.mp hctail).1
        have hs_lt : s < lo.1 := by
          have h3 : s ≤ nxt.1 :=
            mem_fst_le_head (fun a b h => h.fst_le)
              (List.chain'_cons.mp hctail).2 hm''
          unfold SizeGap at hgap2
          linarith
        rw [interpGo, if_neg hne, if_neg (by
          rintro ⟨-, hge⟩
          exact absurd hge (not_le.mpr hs_lt))]
        exact ih lo nxt hctail hm'

/-- C2 amended: on any table whose descending-sorted form has at least two
readings with adjacent sizes at least `1e-9` apart, interpolation at a
tabulated size returns that reading's percent exactly. -/
theorem interpolate_exact_match (t : List (ℚ × ℚ)) (s p : ℚ) (hi lo : ℚ × ℚ)
    (rest : List (ℚ × ℚ))
    (hl : sortBySizeDesc t = hi :: lo :: rest)
    (hgap : List.Chain' SizeGap (hi :: lo :: rest))
    (hmem : (s, p) ∈ t) :
    interpolate_passing_at t s = some p := by
  have hm' : (s, p) ∈ hi :: lo :: rest := hl ▸ mem_sortBySizeDesc.mpr hmem
  have h1 : s ≤ hi.1 := mem_fst_le_head (fun a b h => h.fst_le) hgap hm'
  have h2 : (List.getLastD rest lo).1 ≤ s := by
    have h := getLastD_fst_le_mem (fun a b h => h.fst_le) hgap hm'
    rwa [List.getLastD_cons] at h
  unfold interpolate_passing_at
  rw [hl]
  dsimp only
  rw [if_neg (not_lt.mpr h1), List.getLastD_cons, if_neg (not_lt.mpr h2)]
  exact interpGo_exact rest hi lo hgap hm'

/-- C2 counterexample: on a single-reading table the interpolation loop is
never entered and the function falls through to the `nan` sentinel, so it
does not return the tabulated percent. -/
theorem interpolate_single_reading :
    interpolate_passing_at [((1:ℚ), (50:ℚ))] 1 = none ∧
    interpolate_passing_at [((1:ℚ), (50:ℚ))] 1 ≠ some 50 := by
  constructor
  · rfl
  · intro h
    exact Option.noConfusion h

/-- C2 witness: exact match on a three-reading table given out of order. -/
theorem interpolate_exact_match_check :
    interpolate_passing_at [((1:ℚ), 40), ((3:ℚ), 95), ((2:ℚ), 80)] 2 = some 80 :=
  interpolate_exact_match [((1:ℚ), 40), ((3:ℚ), 95), ((2:ℚ), 80)] 2 80 (3, 95) (2, 80)
    [(1, 40)]
    (by decide)
    (by norm_num [List.chain'_cons, List.chain'_singleton, SizeGap, exact_eps])
    (by norm_num)

/-! ## Monotonicity of the interpolator (C8) -/

/-- Strictly descending adjacent sizes: pairwise-distinct sieve sizes after
the descending sort. -/
def SizeLT (a b : ℚ × ℚ) : Prop := b.1 < a.1

/-- Passing percent non-increasing down the descending-sorted table
(passing percent grows with sieve size — the physical direction). -/
def PctLE (a b : ℚ × ℚ) : Prop := b.2 ≤ a.2

/-- Passing percent non-decreasing down the descending-sorted table
(the opposite monotonicity direction). -/
def PctGE (a b : ℚ × ℚ) : Prop := a.2 ≤ b.2

/-- The linear-interpolation value of the bracket branch of `interpGo`. -/
def linVal (hi lo : ℚ × ℚ) (c : ℚ) : ℚ :=
  lo.2 + (c - lo.1) / (hi.1 - lo.1) * (hi.2 - lo.2)

lemma linVal_mono {hi lo : ℚ × ℚ} {c1 c2 : ℚ} (hs : lo.1 < hi.1) (hp : lo.2 ≤ hi.2)
    (h12 : c1 ≤ c2) : linVal hi lo c1 ≤ linVal hi lo c2 := by
  unfold linVal
  have hd : (0:ℚ) < hi.1 - lo.1 := by linarith
  have ht : (c1 - lo.1) / (hi.1 - lo.1) ≤ (c2 - lo.1) / (hi.1 - lo.1) :=
    (div_le_div_iff_of_pos_right hd).mpr (by linarith)
  exact add_le_add_left (mul_le_mul_of_nonneg_right ht (by linarith)) _

lemma linVal_le_hi {hi lo : ℚ × ℚ} {c : ℚ} (hs : lo.1 < hi.1) (hp : lo.2 ≤ hi.2)
    (hc : c ≤ hi.1) : linVal hi lo c ≤ hi.2 := by
  unfold linVal
  have hd : (0:ℚ) < hi.1 - lo.1 := by linarith
  have ht : (c - lo.1) / (hi.1 - lo.1) ≤ 1 := by
    rw [div_le_one hd]
    linarith
  have h := mul_le_mul_of_nonneg_right ht (by linarith : (0:ℚ) ≤ hi.2 - lo.2)
  rw [one_mul] at h
  linarith

lemma lo_le_linVal {hi lo : ℚ × ℚ} {c : ℚ} (hs : lo.1 < hi.1) (hp : lo.2 ≤ hi.2)
    (hc : lo.1 ≤ c) : lo.2 ≤ linVal hi lo c := by
  unfold linVal
  have hd : (0:ℚ) < hi.1 - lo.1 := by linarith
  have ht : 0 ≤ (c - lo.1) / (hi.1 - lo.1) := div_nonneg (by linarith) (le_of_lt hd)
  have h := mul_nonneg ht (by linarith : (0:ℚ) ≤ hi.2 - lo.2)
  linarith

lemma interpGo_eps {hi lo : ℚ × ℚ} {rest : List (ℚ × ℚ)} {c : ℚ}
    (h : |hi.1 - c| < exact_eps) : interpGo (hi :: lo :: rest) c = some hi.2 := by
  rw [interpGo, if_pos h]

lemma interpGo_bracket {hi lo : ℚ × ℚ} {rest : List (ℚ × ℚ)} {c : ℚ}
    (hne : ¬ |hi.1 - c| < exact_eps) (hbr : hi.1 ≥ c ∧ c ≥ lo.1) :
    interpGo (hi :: lo :: rest) c = some (linVal hi lo c) := by
  have hnd : ¬ |hi.1 - lo.1| < dup_eps := by
    intro hd
    apply hne
    rw [abs_of_nonneg (by linarith [hbr.1] : (0:ℚ) ≤ hi.1 - c)]
    rw [abs_of_nonneg (by linarith [hbr.1, hbr.2] : (0:ℚ) ≤ hi.1 - lo.1)] at hd
    have hde : dup_eps < exact_eps := by norm_num [dup_eps, exact_eps]
    have : hi.1 - c ≤ hi.1 - lo.1 := by linarith [hbr.2]
    linarith
  rw [interpGo, if_neg hne, if_pos hbr, if_neg hnd, linVal]

lemma interpGo_step {hi lo : ℚ × ℚ} {rest : List (ℚ × ℚ)} {c : ℚ}
    (hne : ¬ |hi.1 - c| < exact_eps) (hnb : ¬(hi.1 ≥ c ∧ c ≥ lo.1)) :
    interpGo (hi :: lo :: rest) c = interpGo (lo :: rest) c := by
  rw [interpGo, if_neg hne, if_neg hnb]

lemma interpGo_le_head :
    ∀ (tl : List (ℚ × ℚ)) (hi : ℚ × ℚ) (c v : ℚ),
      List.Chain' SizeLT (hi :: tl) → List.Chain' PctLE (hi :: tl) →
      interpGo (hi :: tl) c = some v → v ≤ hi.2 := by
  intro tl
  induction tl with
  | nil =>
    intro hi c v _ _ h
    rw [interpGo_single] at h
    exact Option.noConfusion h
  | cons lo rest ih =>
    intro hi c v hlt hp h
    have hs : lo.1 < hi.1 := (List.chain'_cons.mp hlt).1
    have hpp : lo.2 ≤ hi.2 := (List.chain'_cons.mp hp).1
    by_cases h1 : |hi.1 - c| < exact_eps
    · rw [interpGo_eps h1] at h
      exact le_of_eq (Option.some.inj h).symm
    · by_cases h2 : hi.1 ≥ c ∧ c ≥ lo.1
      · rw [interpGo_bracket h1 h2] at h
        rw [← Option.some.inj h]
        exact linVal_le_hi hs hpp h2.1
      · rw [interpGo_step h1 h2] at h
        exact le_trans
          (ih lo c v (List.chain'_cons.mp hlt).2 (List.chain'_cons.mp hp).2 h) hpp

lemma interpGo_total :
    ∀ (rest : List (ℚ × ℚ)) (hi lo : ℚ × ℚ) (c : ℚ),
      (List.getLastD rest lo).1 < c → c < hi.1 →
      ∃ v, interpGo (hi :: lo :: rest) c = some v := by
  intro rest
  induction rest with
  | nil =>
    intro hi lo c hlast hhead
    rw [List.getLastD_nil] at hlast
    by_cases h1 : |hi.1 - c| < exact_eps
    · exact ⟨hi.2, interpGo_eps h1⟩
    · exact ⟨_, interpGo_bracket h1 ⟨le_of_lt hhead, le_of_lt hlast⟩⟩
  | cons nxt rest' ih =>
    intro hi lo c hlast hhead
    rw [List.getLastD_cons] at hlast
    by_cases h1 : |hi.1 - c| < exact_eps
    · exact ⟨hi.2, interpGo_eps h1⟩
    · by_cases h2 : hi.1 ≥ c ∧ c ≥ lo.1
      · exact ⟨_, interpGo_bracket h1 h2⟩
      · have hc : c < lo.1 := by
          rcases not_and_or.mp h2 with h | h
          · exact absurd (le_of_lt hhead) h
          · exact not_le.mp h
        obtain ⟨v, hv⟩ := ih lo nxt c hlast hc
        exact ⟨v, by rw [interpGo_step h1 h2]; exact hv⟩

lemma interpGo_mono_head {hi lo : ℚ × ℚ} {rest : List (ℚ × ℚ)} {c1 c2 : ℚ}
    (hs : lo.1 < hi.1) (hpp : lo.2 ≤ hi.2)
    (hc1 : lo.1 ≤ c1) (h12 : c1 ≤ c2) (h2hi : c2 < hi.1) :
    ∃ v1 v2, interpGo (hi :: lo :: rest) c1 = some v1 ∧
      interpGo (hi :: lo :: rest) c2 = some v2 ∧ v1 ≤ v2 := by
  have h1hi : c1 < hi.1 := lt_of_le_of_lt h12 h2hi
  by_cases e2 : |hi.1 - c2| < exact_eps
  · by_cases e1 : |hi.1 - c1| < exact_eps
    · exact ⟨hi.2, hi.2, interpGo_eps e1, interpGo_eps e2, le_refl _⟩
    · refine ⟨_, hi.2, interpGo_bracket e1 ⟨le_of_lt h1hi, hc1⟩, interpGo_eps e2, ?_⟩
      exact linVal_le_hi hs hpp (le_of_lt h1hi)
  · by_cases e1 : |hi.1 - c1| < exact_eps
    · exfalso
      apply e2
      rw [abs_of_nonneg (by linarith : (0:ℚ) ≤ hi.1 - c2)]
      rw [abs_of_nonneg (by linarith : (0:ℚ) ≤ hi.1 - c1)] at e1
      linarith
    · refine ⟨_, _, interpGo_bracket e1 ⟨le_of_lt h1hi, hc1⟩,
        interpGo_bracket e2 ⟨le_of_lt h2hi, le_trans hc1 h12⟩, ?_⟩
      exact linVal_mono hs hpp h12

lemma interpGo_mono :
    ∀ (rest : List (ℚ × ℚ)) (hi lo : ℚ × ℚ) (c1 c2 : ℚ),
      List.Chain' SizeLT (hi :: lo :: rest) → List.Chain' PctLE (hi :: lo :: rest) →
      (List.getLastD rest lo).1 < c1 → c1 ≤ c2 → c2 < hi.1 →
      ∃ v1 v2, interpGo (hi :: lo :: rest) c1 = some v1 ∧
        interpGo (hi :: lo :: rest) c2 = some v2 ∧ v1 ≤ v2 := by
  intro rest
  induction rest with
  | nil =>
    intro hi lo c1 c2 hlt hp hl1 h12 h2hi
    rw [List.getLastD_nil] at hl1
    exact interpGo_mono_head (List.chain'_cons.mp hlt).1 (List.chain'_cons.mp hp).1
      (le_of_lt hl1) h12 h2hi
  | cons nxt rest' ih =>
    intro hi lo c1 c2 hlt hp hl1 h12 h2hi
    rw [List.getLastD_cons] at hl1
    have hs : lo.1 < hi.1 := (List.chain'_cons.mp hlt).1
    have hpp : lo.2 ≤ hi.2 := (List.chain'_cons.mp hp).1
    have hlt2 : List.Chain' SizeLT (lo :: nxt :: rest') := (List.chain'_cons.mp hlt).2
    have hp2 : List.Chain' PctLE (lo :: nxt :: rest') := (List.chain'_cons.mp hp).2
    have h1hi : c1 < hi.1 := lt_of_le_of_lt h12 h2hi
    by_cases hc1 : lo.1 ≤ c1
    · exact interpGo_mono_head hs hpp hc1 h12 h2hi
    · push_neg at hc1
      by_cases e1 : |hi.1 - c1| < exact_eps
      · have e2 : |hi.1 - c2| < exact_eps := by
          rw [abs_of_nonneg (by linarith : (0:ℚ) ≤ hi.1 - c2)]
          rw [abs_of_nonneg (by linarith : (0:ℚ) ≤ hi.1 - c1)] at e1
          linarith
        exact ⟨hi.2, hi.2, interpGo_eps e1, interpGo_eps e2, le_refl _⟩
      · obtain ⟨v1, hv1⟩ := interpGo_total rest' lo nxt c1 hl1 hc1
        have hub : v1 ≤ lo.2 := interpGo_le_head (nxt :: rest') lo c1 v1 hlt2 hp2 hv1
        have hstep1 : interpGo (hi :: lo :: nxt :: rest') c1 = some v1 := by
          rw [interpGo_step e1 (by
            rintro ⟨-, hge⟩
            exact absurd hge (not_le.mpr hc1))]
          exact hv1
        by_cases hc2 : lo.1 ≤ c2
        · by_cases e2 : |hi.1 - c2| < exact_eps
          · exact ⟨v1, hi.2, hstep1, interpGo_eps e2, le_trans hub hpp⟩
          · refine ⟨v1, _, hstep1, interpGo_bracket e2 ⟨le_of_lt h2hi, hc2⟩, ?_⟩
            exact le_trans hub (lo_le_linVal hs hpp hc2)
        · push_neg at hc2
          by_cases e2 : |hi.1 - c2| < exact_eps
          · exact ⟨v1, hi.2, hstep1, interpGo_eps e2, le_trans hub hpp⟩
          · obtain ⟨w1, w2, hw1, hw2, hw⟩ := ih lo nxt c1 c2 hlt2 hp2 hl1 h12 hc2
            refine ⟨w1, w2, ?_, ?_, hw⟩
            · rw [interpGo_step e1 (by
                rintro ⟨-, hge⟩
                exact absurd hge (not_le.mpr hc1))]
              exact hw1
            · rw [interpGo_step e2 (by
                rintro ⟨-, hge⟩
                exact absurd hge (not_le.mpr hc2))]
              exact hw2

/-- Negate every passing percent: the reflection used to derive the
decreasing-table direction from the increasing one. -/
def negPct (l : List (ℚ × ℚ)) : List (ℚ × ℚ) := l.map (fun r => (r.1, -r.2))

lemma interpGo_negPct : ∀ (l : List (ℚ × ℚ)) (c : ℚ),
    interpGo (negPct l) c = Option.map (fun v => -v) (interpGo l c) := by
  intro l
  induction l with
  | nil => intro c; rfl
  | cons hi tl ih =>
    intro c
    cases tl with
    | nil => rfl
    | cons lo rest =>
      show interpGo ((hi.1, -hi.2) :: (lo.1, -lo.2) :: negPct rest) c = _
      simp only [interpGo]
      split_ifs with h1 h2 h3
      · simp
      · simp only [Option.map_some', Option.some.injEq]
        ring
      · simp only [Option.map_some', Option.some.injEq]
        ring
      · exact ih c

lemma chain'_SizeLT_negPct {l : List (ℚ × ℚ)} (h : List.Chain' SizeLT l) :
    List.Chain' SizeLT (negPct l) := by
  unfold negPct
  rw [List.chain'_map]
  exact h.imp (fun _ _ hab => hab)

lemma chain'_PctLE_negPct {l : List (ℚ × ℚ)} (h : List.Chain' PctGE l) :
    List.Chain' PctLE (negPct l) := by
  unfold negPct
  rw [List.chain'_map]
  exact h.imp (fun _ _ hab => neg_le_neg hab)

lemma getLastD_negPct_fst : ∀ (l : List (ℚ × ℚ)) (d : ℚ × ℚ),
    (List.getLastD (negPct l) (d.1, -d.2)).1 = (List.getLastD l d).1 := by
  intro l
  induction l with
  | nil => intro d; rfl
  | cons a as ih =>
    intro d
    show (List.getLastD ((a.1, -a.2) :: negPct as) (d.1, -d.2)).1 = _
    rw [List.getLastD_cons, List.getLastD_cons]
    exact ih a

/-- C8: on any table whose descending-sorted form has at least two readings
with pairwise-distinct sieve sizes and adjacentwise-monotone passing
percents, interpolation is monotone in the cutoff in the same direction,
for all cutoffs strictly between the smallest and the largest tabulated
size. -/
theorem interpolate_passing_at_monotone (t : List (ℚ × ℚ)) (c1 c2 : ℚ)
    (hi lo : ℚ × ℚ) (rest : List (ℚ × ℚ))
    (hl : sortBySizeDesc t = hi :: lo :: rest)
    (hlt : List.Chain' SizeLT (hi :: lo :: rest))
    (hl1 : (List.getLastD rest lo).1 < c1) (h12 : c1 ≤ c2) (h2hi : c2 < hi.1) :
    (List.Chain' PctLE (hi :: lo :: rest) →
      ∃ v1 v2, interpolate_passing_at t c1 = some v1 ∧
        interpolate_passing_at t c2 = some v2 ∧ v1 ≤ v2) ∧
    (List.Chain' PctGE (hi :: lo :: rest) →
      ∃ v1 v2, interpolate_passing_at t c1 = some v1 ∧
        interpolate_passing_at t c2 = some v2 ∧ v2 ≤ v1) := by
  have h1hi : c1 < hi.1 := lt_of_le_of_lt h12 h2hi
  have hl2 : (List.getLastD rest lo).1 < c2 := lt_of_lt_of_le hl1 h12
  have hred : ∀ c, (List.getLastD rest lo).1 < c → c < hi.1 →
      interpolate_passing_at t c = interpGo (hi :: lo :: rest) c := by
    intro c ha hb
    unfold interpolate_passing_at
    rw [hl]
    dsimp only
    rw [List.getLastD_cons, if_neg (not_lt.mpr (le_of_lt hb)),
      if_neg (not_lt.mpr (le_of_lt ha))]
  constructor
  · intro hp
    obtain ⟨v1, v2, h1, h2, h⟩ := interpGo_mono rest hi lo c1 c2 hlt hp hl1 h12 h2hi
    exact ⟨v1, v2, by rw [hred c1 hl1 h1hi]; exact h1,
      by rw [hred c2 hl2 h2hi]; exact h2, h⟩
  · intro hp
    have hltn : List.Chain' SizeLT ((hi.1, -hi.2) :: (lo.1, -lo.2) :: negPct rest) :=
      chain'_SizeLT_negPct hlt
    have hpn : List.Chain' PctLE ((hi.1, -hi.2) :: (lo.1, -lo.2) :: negPct rest) :=
      chain'_PctLE_negPct hp
    have hlastn : (List.getLastD (negPct rest) (lo.1, -lo.2)).1 < c1 := by
      rw [getLastD_negPct_fst]
      exact hl1
    obtain ⟨w1, w2, hw1, hw2, hw⟩ :=
      interpGo_mono (negPct rest) (hi.1, -hi.2) (lo.1, -lo.2) c1 c2 hltn hpn
        hlastn h12 h2hi
    have hg1 : interpGo (negPct (hi :: lo :: rest)) c1 = some w1 := hw1
    have hg2 : interpGo (negPct (hi :: lo :: rest)) c2 = some w2 := hw2
    rw [interpGo_negPct] at hg1 hg2
    obtain ⟨v1, hv1, hv1'⟩ := Option.map_eq_some'.mp hg1
    obtain ⟨v2, hv2, hv2'⟩ := Option.map_eq_some'.mp hg2
    refine ⟨v1, v2, by rw [hred c1 hl1 h1hi]; exact hv1,
      by rw [hred c2 hl2 h2hi]; exact hv2, ?_⟩
    have h1' : -v1 = w1 := hv1'
    have h2' : -v2 = w2 := hv2'
    linarith

/-- C8 witness: the monotonicity statement instantiated on a concrete
three-reading table with interior cutoffs 3/2 ≤ 5/2. -/
theorem interpolate_passing_at_monotone_check :
    (List.Chain' PctLE [((3:ℚ), (90:ℚ)), (2, 70), (1, 40)] →
      ∃ v1 v2,
        interpolate_passing_at [((3:ℚ), (90:ℚ)), (2, 70), (1, 40)] (3/2) = some v1 ∧
        interpolate_passing_at [((3:ℚ), (90:ℚ)), (2, 70), (1, 40)] (5/2) = some v2 ∧
        v1 ≤ v2) ∧
    (List.Chain' PctGE [((3:ℚ), (90:ℚ)), (2, 70), (1, 40)] →
      ∃ v1 v2,
        interpolate_passing_at [((3:ℚ), (90:ℚ)), (2, 70), (1, 40)] (3/2) = some v1 ∧
        interpolate_passing_at [((3:ℚ), (90:ℚ)), (2, 70), (1, 40)] (5/2) = some v2 ∧
        v2 ≤ v1) :=
  interpolate_passing_at_monotone [((3:ℚ), (90:ℚ)), (2, 70), (1, 40)] (3/2) (5/2)
    (3, 90) (2, 70) [(1, 40)]
    (by decide)
    (by norm_num [List.chain'_cons, List.chain'_singleton, SizeLT])
    (by norm_num [List.getLastD_cons, List.getLastD_nil])
    (by norm_num)
    (by norm_num)

end MortarQC
